import Mathlib

/-!
Verification development for the JSON schema builder
(`src/components/json-schema-builder.tsx`).

The component keeps an ordered, recursively nested list of fields
(`SchemaField`), offers path-addressed operations (`addField`,
`removeField`, and the type selector's change handler), and projects the
tree to a plain JSON-like object (`generateSchema`).  The definitions
below are a shallow embedding of that code: TypeScript objects become
inductive values, `react-hook-form`'s documented array/path helpers
(`getValues`, `setValue`, `append`, `remove`) become explicit functions
over the field list, and JavaScript string/number idioms (`split`,
`parseInt`, `Array.prototype.splice`) are embedded by functions that
follow the ECMAScript semantics the source relies on.
-/

/-- The `SchemaFieldType` union from the source: `"string" | "number" | "nested"`. -/
inductive SchemaFieldType where
  | string
  | number
  | nested
deriving DecidableEq, Repr

/-- The `SchemaField` interface from the source: `id`, `name`, `type`, and an
optional `fields` array of children (absent unless some code wrote it).  The
string `id` produced by `crypto.randomUUID()` is embedded as a `Nat` drawn
from a fresh-id supply (see `BuilderState`). -/
inductive SchemaField where
  | mk (id : Nat) (name : String) (type : SchemaFieldType)
       (fields : Option (List SchemaField))

/-- Projection of the `id` component. -/
def SchemaField.id : SchemaField → Nat
  | .mk i _ _ _ => i

/-- Projection of the `name` component. -/
def SchemaField.name : SchemaField → String
  | .mk _ n _ _ => n

/-- Projection of the `type` component. -/
def SchemaField.type : SchemaField → SchemaFieldType
  | .mk _ _ t _ => t

/-- Projection of the optional `fields` (children) component. -/
def SchemaField.fields : SchemaField → Option (List SchemaField)
  | .mk _ _ _ c => c

/-- The JSON-like values produced by `generateSchema`: string type tags and
objects, the latter as ordered key/value lists with JavaScript object
semantics maintained by `objInsert`. -/
inductive Json where
  | str (s : String)
  | obj (kvs : List (String × Json))

/-- Numeric value of a list of decimal digit characters. -/
def digitsVal (l : List Char) : Nat :=
  l.foldl (fun a c => 10 * a + (c.toNat - '0'.toNat)) 0

/-- ECMAScript integer-index test for a property key: `s` is an integer
index exactly when it is the canonical decimal numeral of its value
(`CanonicalNumericIndexString`: `ToString(n) = s`), so `"02"` or `"b"` are
not integer indices.  The 2^53-1 bound is irrelevant at the sizes a field
name can realistically take and is not modelled. -/
def integerIndex? (s : String) : Option Nat :=
  if Nat.repr (digitsVal s.data) = s then some (digitsVal s.data) else none

/-- Insertion of a fresh integer-index key into a property list kept in
JavaScript property order: the new entry goes before the first key that is
either a larger integer index or not an integer index at all
(`OrdinaryOwnPropertyKeys` keeps integer-index keys first, ascending). -/
def insertIntKey (n : Nat) (k : String) (v : Json) :
    List (String × Json) → List (String × Json)
  | [] => [(k, v)]
  | p :: rest =>
    match integerIndex? p.1 with
    | some m => if n < m then (k, v) :: p :: rest else p :: insertIntKey n k v rest
    | none => (k, v) :: p :: rest

/-- JavaScript object update `{...acc, [k]: v}` on a property list kept in
JavaScript property order: when `k` is already a key the entry keeps its
position and its value is overwritten; a fresh integer-index key is placed
in the ascending integer-index segment at the front; any other fresh key is
appended at the end.  This mirrors `OrdinaryOwnPropertyKeys`, the order
`JSON.stringify` serializes the object in. -/
def objInsert (acc : List (String × Json)) (k : String) (v : Json) :
    List (String × Json) :=
  if acc.any (fun p => p.1 == k) then
    acc.map (fun p => if p.1 == k then (k, v) else p)
  else
    match integerIndex? k with
    | some n => insertIntKey n k v acc
    | none => acc ++ [(k, v)]

mutual

/-- The `fields.reduce` loop of `generateSchema`, with the accumulator made
explicit: each field contributes the entry `field.name ↦ fieldValue field`. -/
def generateSchemaList (acc : List (String × Json)) :
    List SchemaField → List (String × Json)
  | [] => acc
  | f :: rest => generateSchemaList (objInsert acc f.name (fieldValue f)) rest

/-- The `switch (field.type)` of `generateSchema`: `"string"`/`"number"`
project to their literal tag; `"nested"` projects the children
(`field.fields ? generateSchema(field.fields) : {}` — note an empty array is
truthy in JavaScript, so `some []` also recurses and yields `{}`). -/
def fieldValue : SchemaField → Json
  | .mk _ _ .string _ => .str "string"
  | .mk _ _ .number _ => .str "number"
  | .mk _ _ .nested (some l) => .obj (generateSchemaList [] l)
  | .mk _ _ .nested none => .obj []

end

/-- `generateSchema` from the source: the reduce over the field list starting
from the empty object. -/
def generateSchema (fs : List SchemaField) : Json :=
  .obj (generateSchemaList [] fs)

/-- The literal type tag the projection uses for a leaf type. -/
def typeTag : SchemaFieldType → String
  | .string => "string"
  | .number => "number"
  | .nested => "nested"

/-- JavaScript `String.prototype.includes`: substring containment, used by
`removeField`'s `path.includes(".fields.")` test. -/
def strIncludes (s sub : String) : Bool := decide (sub.data <:+: s.data)

/-- Accumulator-style worker for `splitDot` (JavaScript `path.split(".")`):
`acc` holds the current chunk reversed. -/
def splitDotAux : List Char → List Char → List (List Char)
  | [], acc => [acc.reverse]
  | c :: rest, acc =>
    if c = '.' then acc.reverse :: splitDotAux rest []
    else splitDotAux rest (c :: acc)

/-- JavaScript `path.split(".")`, implemented directly over the character
list so it computes and can be reasoned about. -/
def splitDot (s : String) : List String :=
  (splitDotAux s.data []).map (fun l => String.mk l)

/-- Leading decimal digits of a character list, as a number; `none` when the
list does not start with a digit. -/
def leadingDigits (l : List Char) : Option Nat :=
  let ds := l.takeWhile Char.isDigit
  if ds.isEmpty then none else some (digitsVal ds)

/-- JavaScript `parseInt(s)` in base 10: skip leading whitespace, optional
sign, then the longest digit prefix; `NaN` (no digit prefix) is `none`.
`removeField` applies this to full path strings such as `"fields.0"`, where
it yields `NaN`. -/
def parseIntJS (s : String) : Option Int :=
  match s.data.dropWhile Char.isWhitespace with
  | '-' :: rest => (leadingDigits rest).map (fun n => -(n : Int))
  | '+' :: rest => (leadingDigits rest).map (fun n => (n : Int))
  | l => (leadingDigits l).map (fun n => (n : Int))

/-- JavaScript array index resolution for a string property key: the key is
an index only when it is the canonical decimal numeral of the index (so
`"02"` or `"x"` address nothing). -/
def canonIndex? (s : String) : Option Nat :=
  match s.data with
  | [] => none
  | ['0'] => some 0
  | c :: rest =>
    if c ≠ '0' ∧ (c :: rest).all Char.isDigit then some (digitsVal (c :: rest))
    else none

/-- JavaScript `arr.splice(i, 1)`: `i` is coerced with `ToIntegerOrInfinity`
(negative counts from the end, clamped), and the element at the resulting
position, if any, is removed. -/
def spliceRemove (i : Int) (l : List α) : List α :=
  let n : Nat := if i < 0 then ((l.length : Int) + i).toNat else min i.toNat l.length
  l.take n ++ l.drop (n + 1)

/-- `splice` with a possibly-`NaN` index: `ToIntegerOrInfinity(NaN) = 0`, so
a `NaN` index splices at position 0.  This also models
`react-hook-form`'s `useFieldArray().remove(index)`, which splices `index`
out of the root array. -/
def jsSplice (i : Option Int) (l : List α) : List α :=
  spliceRemove (i.getD 0) l

/-- `react-hook-form`'s `getValues(path)` for the dotted paths this component
uses, which all end in `.fields` (or are `fields` itself): walk the segment
list, descending into a field's children at each `"fields"` segment and
indexing the array at each numeric segment; any miss yields `undefined`
(`none`). -/
def getArrSegs : List String → List SchemaField → Option (List SchemaField)
  | [seg], fs => if seg = "fields" then some fs else none
  | seg :: iStr :: rest, fs =>
    if seg = "fields" then
      match canonIndex? iStr with
      | some i =>
        match fs[i]? with
        | some f =>
          match f.fields with
          | some l => getArrSegs rest l
          | none => none
        | none => none
      | none => none
    else none
  | [], _ => none

/-- `react-hook-form`'s `setValue(path, newl)` for a path ending in
`.fields`: walk as in `getArrSegs` and replace the addressed children array
(creating the `fields` property when the terminal field lacks one, as the
JavaScript `set` does).  A path that cannot be walked is embedded as a
no-op; such paths are not produced by the component's UI. -/
def setArrSegs : List String → List SchemaField → List SchemaField → List SchemaField
  | [seg], newl, fs => if seg = "fields" then newl else fs
  | seg :: iStr :: rest, newl, fs =>
    if seg = "fields" then
      match canonIndex? iStr with
      | some i =>
        match fs[i]? with
        | some f =>
          match f.fields with
          | some l => fs.set i (.mk f.id f.name f.type (some (setArrSegs rest newl l)))
          | none =>
            if rest = ["fields"] then fs.set i (.mk f.id f.name f.type (some newl))
            else fs
        | none => fs
      | none => fs
    else fs
  | [], _, fs => fs

/-- The field a UI path such as `fields.0.fields.2` addresses: the component
renders root rows at `fields.${index}` and child rows at
`${path}.fields.${nestedIndex}`. -/
def resolveSegs : List String → List SchemaField → Option SchemaField
  | seg :: iStr :: rest, fs =>
    if seg = "fields" then
      match canonIndex? iStr with
      | some i =>
        match rest with
        | [] => fs[i]?
        | _ :: _ =>
          match fs[i]? with
          | some f =>
            match f.fields with
            | some l => resolveSegs rest l
            | none => none
          | none => none
      | none => none
    else none
  | _, _ => none

/-- The type selector's change handler: the `Controller` for `${path}.type`
writes the newly chosen option to that path (`setValue`-style) and touches
nothing else. -/
def setTypeSegs : List String → SchemaFieldType → List SchemaField → List SchemaField
  | seg :: iStr :: rest, ty, fs =>
    if seg = "fields" then
      match canonIndex? iStr with
      | some i =>
        match fs[i]? with
        | some f =>
          match rest with
          | [] => fs.set i (.mk f.id f.name ty f.fields)
          | _ :: _ =>
            match f.fields with
            | some l => fs.set i (.mk f.id f.name f.type (some (setTypeSegs rest ty l)))
            | none => fs
        | none => fs
      | none => fs
    else fs
  | _, _, fs => fs

/-- `form.getValues(path)` on a dotted path string. -/
def getValuesFields (path : String) (fs : List SchemaField) :
    Option (List SchemaField) :=
  getArrSegs (splitDot path) fs

/-- `form.setValue(path, newl)` on a dotted path string. -/
def setValuesFields (path : String) (newl fs : List SchemaField) :
    List SchemaField :=
  setArrSegs (splitDot path) newl fs

/-- `setFieldType` at a dotted path string (the `Select`'s change handler). -/
def setFieldTypeAt (path : String) (ty : SchemaFieldType)
    (fs : List SchemaField) : List SchemaField :=
  setTypeSegs (splitDot path) ty fs

/-- `removeField` from the source, verbatim in structure: a path containing
`".fields."` is split, its last segment parsed as the index, the parent
array fetched (`|| []`), spliced, and written back; otherwise
`remove(parseInt(path))` is called on the root array.  Note that root paths
have the shape `fields.${index}`, on which `parseInt` yields `NaN`. -/
def removeField (path : String) (fs : List SchemaField) : List SchemaField :=
  if strIncludes path ".fields." then
    let parts := splitDot path
    let index := parseIntJS (parts.getLastD "")
    let parentPath := String.intercalate "." parts.dropLast
    let currentFields := (getValuesFields parentPath fs).getD []
    let updatedFields := jsSplice index currentFields
    setValuesFields parentPath updatedFields fs
  else
    jsSplice (parseIntJS path) fs

/-- The error the specification says a stale path should raise. -/
inductive InvalidPathError where
  | stalePath

/-- `removeField` viewed with JavaScript exception behavior made explicit:
the source body contains no `throw` and no error signalling of any kind, so
every call completes normally and the exception-aware view is always
`Except.ok` of the updated list. -/
def removeFieldE (path : String) (fs : List SchemaField) :
    Except InvalidPathError (List SchemaField) :=
  .ok (removeField path fs)

/-- The component's state: the field array held by `useForm`, together with
the fresh-id supply embedding `crypto.randomUUID()` (each call yields
`nextId` and bumps the counter, so ids are never repeated). -/
structure BuilderState where
  fields : List SchemaField
  nextId : Nat

/-- The `defaultValues` the form mounts with: one field with a fresh id,
empty name and type `string`. -/
def initialState : BuilderState :=
  ⟨[.mk 0 "" .string none], 1⟩

/-- `addField` from the source: build the new field (fresh id, empty name,
type `string`, no `fields` property), then either `append` it to the root
array (when `parentPath` is absent — or empty, which is falsy in the
JavaScript `if (parentPath)`) or read `${parentPath}.fields` (`|| []`) and
write it back with the new field appended.  The arrow function has no
`return` statement, so its JavaScript value is `undefined`, embedded as the
`none` second component. -/
def addField (parentPath : Option String) (st : BuilderState) :
    BuilderState × Option Nat :=
  let newField : SchemaField := .mk st.nextId "" .string none
  match parentPath with
  | some pp =>
    if pp = "" then (⟨st.fields ++ [newField], st.nextId + 1⟩, none)
    else
      let currentFields := (getValuesFields (pp ++ ".fields") st.fields).getD []
      (⟨setValuesFields (pp ++ ".fields") (currentFields ++ [newField]) st.fields,
        st.nextId + 1⟩, none)
  | none => (⟨st.fields ++ [newField], st.nextId + 1⟩, none)

/-- A dotted path string for a structural path (a sequence of sibling
indices), exactly as the UI builds them: `[i]` is `fields.i`, `[i, j]` is
`fields.i.fields.j`, and so on. -/
def pathToString (p : List Nat) : String :=
  String.intercalate "." (p.map (fun i => "fields." ++ toString i))

/-- The structural operations of claim C8: adding a field (optionally under
a parent path) and removing a field at a path. -/
inductive Op where
  | add (parentPath : Option (List Nat))
  | remove (path : List Nat)

/-- Apply one operation to the component state. -/
def applyOp (st : BuilderState) : Op → BuilderState
  | .add p => (addField (p.map pathToString) st).1
  | .remove p => ⟨removeField (pathToString p) st.fields, st.nextId⟩

/-- Run a sequence of operations from a state. -/
def runOps (st : BuilderState) : List Op → BuilderState
  | [] => st
  | o :: rest => runOps (applyOp st o) rest

mutual

/-- The multiset of ids occurring in a field and its whole subtree. -/
def idsOfField : SchemaField → Multiset Nat
  | .mk i _ _ (some l) => {i} + idsList l
  | .mk i _ _ none => {i}

/-- The multiset of ids occurring in a list of fields and their subtrees. -/
def idsList : List SchemaField → Multiset Nat
  | [] => 0
  | f :: rest => idsOfField f + idsList rest

end

/-- Path resolution as §4.1 of the specification words it, used to state
claim C2's hypothesis: resolution fails when an index is out of bounds at
some level or a non-terminal index addresses a field whose type is not
`nested`. -/
def resolvesSpec : List Nat → List SchemaField → Bool
  | [], _ => false
  | [i], fs => decide (i < fs.length)
  | i :: rest, fs =>
    match fs[i]? with
    | some f => f.type == .nested && resolvesSpec rest (f.fields.getD [])
    | none => false

/-- The key order a JavaScript object built by repeated `{...acc, [k]: v}`
updates ends up with: each name in the order of its first occurrence,
duplicates dropped.  Used to state C1's key-order conclusion. -/
def firstOccur : List String → List String
  | [] => []
  | x :: rest => x :: firstOccur (rest.filter (fun y => y != x))
termination_by l => l.length
decreasing_by
  simp only [List.length_cons]
  exact Nat.lt_succ_of_le (List.length_filter_le _ _)


/-- Whether an exception-aware result is a failure. -/
def isErrorResult : Except InvalidPathError (List SchemaField) → Bool
  | .error _ => true
  | .ok _ => false


/-- The id invariant maintained by the operations: no id occurs twice in the
tree and every id is below the fresh-id counter. -/
def builderInv (st : BuilderState) : Prop :=
  (idsList st.fields).Nodup ∧ ∀ x ∈ idsList st.fields, x < st.nextId

theorem objInsert_nil (k : String) (v : Json) : objInsert [] k v = [(k, v)] := by
  unfold objInsert
  cases hint : integerIndex? k <;> simp [insertIntKey]

theorem firstOccur_nil : firstOccur [] = [] := by
  unfold firstOccur
  rfl

theorem firstOccur_cons (x : String) (l : List String) :
    firstOccur (x :: l) = x :: firstOccur (l.filter (fun y => y != x)) := by
  unfold firstOccur
  congr 1
  rw [firstOccur.eq_def]

theorem mem_firstOccur :
    ∀ (l : List String) (k : String), k ∈ firstOccur l → k ∈ l
  | [], k, h => by rw [firstOccur_nil] at h; exact absurd h (by simp)
  | x :: rest, k, h => by
    rw [firstOccur_cons] at h
    rcases List.mem_cons.1 h with he | hm
    · subst he
      exact List.mem_cons_self _ _
    · have := mem_firstOccur _ k hm
      exact List.mem_cons_of_mem _ (List.mem_of_mem_filter this)
termination_by l => l.length
decreasing_by
  simp only [List.length_cons]
  exact Nat.lt_succ_of_le (List.length_filter_le _ _)

theorem resolve_after_setType :
    ∀ (segs : List String) (ty : SchemaFieldType) (fs : List SchemaField)
      (f : SchemaField), resolveSegs segs fs = some f →
      resolveSegs segs (setTypeSegs segs ty fs) = some (.mk f.id f.name ty f.fields)
  | [], _, _, _, h => by simp [resolveSegs] at h
  | [_], _, _, _, h => by simp [resolveSegs] at h
  | seg :: iStr :: rest, ty, fs, f, h => by
    simp only [resolveSegs, setTypeSegs] at h ⊢
    by_cases hseg : seg = "fields"
    · simp only [hseg, if_true] at h ⊢
      cases hc : canonIndex? iStr with
      | none => simp [hc] at h
      | some i =>
        rw [hc] at h
        dsimp only at h ⊢
        cases rest with
        | nil =>
          dsimp only at h ⊢
          rw [h]
          dsimp only
          rw [List.getElem?_set_self', h]
          rfl
        | cons r rs =>
          dsimp only at h ⊢
          cases hget : fs[i]? with
          | none =>
            rw [hget] at h
            exact absurd h (by simp)
          | some f0 =>
            rw [hget] at h
            dsimp only at h ⊢
            cases hkids : f0.fields with
            | none =>
              rw [hkids] at h
              exact absurd h (by simp)
            | some l =>
              rw [hkids] at h
              dsimp only at h ⊢
              rw [List.getElem?_set_self', hget]
              dsimp only [SchemaField.fields]
              exact resolve_after_setType (r :: rs) ty l f h
    · simp [hseg] at h

theorem get_children_of_resolve :
    ∀ (segs : List String) (fs : List SchemaField) (f : SchemaField),
      resolveSegs segs fs = some f →
      getArrSegs (segs ++ ["fields"]) fs = f.fields
  | [], _, _, h => by simp [resolveSegs] at h
  | [_], _, _, h => by simp [resolveSegs] at h
  | seg :: iStr :: rest, fs, f, h => by
    simp only [resolveSegs] at h
    rw [List.cons_append, List.cons_append]
    by_cases hseg : seg = "fields"
    · subst hseg
      simp only [eq_self_iff_true, if_true] at h
      cases hc : canonIndex? iStr with
      | none => simp [hc] at h
      | some i =>
        rw [hc] at h
        dsimp only at h
        cases rest with
        | nil =>
          dsimp only at h
          simp only [List.nil_append, getArrSegs, eq_self_iff_true, if_true, hc]
          rw [h]
          dsimp only
          cases hkids : f.fields with
          | none => simp
          | some l => simp [getArrSegs]
        | cons r rs =>
          dsimp only at h
          cases hget : fs[i]? with
          | none =>
            rw [hget] at h
            exact absurd h (by simp)
          | some f0 =>
            rw [hget] at h
            dsimp only at h ⊢
            cases hkids : f0.fields with
            | none =>
              rw [hkids] at h
              exact absurd h (by simp)
            | some l =>
              rw [hkids] at h
              simp only [getArrSegs, eq_self_iff_true, if_true, hc, hget, hkids]
              exact get_children_of_resolve (r :: rs) l f h
    · simp [hseg] at h

theorem resolve_after_setChildren :
    ∀ (segs : List String) (fs : List SchemaField) (f : SchemaField)
      (newl : List SchemaField), resolveSegs segs fs = some f →
      resolveSegs segs (setArrSegs (segs ++ ["fields"]) newl fs) =
        some (.mk f.id f.name f.type (some newl))
  | [], _, _, _, h => by simp [resolveSegs] at h
  | [_], _, _, _, h => by simp [resolveSegs] at h
  | seg :: iStr :: rest, fs, f, newl, h => by
    simp only [resolveSegs] at h ⊢
    rw [List.cons_append, List.cons_append]
    by_cases hseg : seg = "fields"
    · subst hseg
      simp only [eq_self_iff_true, if_true] at h ⊢
      cases hc : canonIndex? iStr with
      | none => simp [hc] at h
      | some i =>
        rw [hc] at h
        dsimp only at h ⊢
        cases rest with
        | nil =>
          dsimp only at h ⊢
          simp only [List.nil_append, setArrSegs, eq_self_iff_true, if_true, hc]
          rw [h]
          dsimp only
          cases hkids : f.fields with
          | none =>
            simp only [eq_self_iff_true, if_true]
            rw [List.getElem?_set_self', h]
            rfl
          | some l =>
            simp only [setArrSegs, eq_self_iff_true, if_true]
            rw [List.getElem?_set_self', h]
            rfl
        | cons r rs =>
          dsimp only at h ⊢
          cases hget : fs[i]? with
          | none =>
            rw [hget] at h
            exact absurd h (by simp)
          | some f0 =>
            rw [hget] at h
            dsimp only at h ⊢
            cases hkids : f0.fields with
            | none =>
              rw [hkids] at h
              exact absurd h (by simp)
            | some l =>
              rw [hkids] at h
              simp only [setArrSegs, eq_self_iff_true, if_true, hc, hget, hkids]
              rw [List.getElem?_set_self', hget]
              dsimp only [SchemaField.fields]
              exact resolve_after_setChildren (r :: rs) l f newl h
    · simp [hseg] at h

theorem fieldValue_non_nested (i : Nat) (n : String) (ty : SchemaFieldType)
    (c : Option (List SchemaField)) (h : ty ≠ SchemaFieldType.nested) :
    fieldValue (.mk i n ty c) = .str (typeTag ty) := by
  cases ty
  · rfl
  · rfl
  · exact absurd rfl h

theorem generateSchemaList_set :
    ∀ (fs : List SchemaField) (acc : List (String × Json)) (i : Nat)
      (f f' : SchemaField), fs[i]? = some f → f'.name = f.name →
      fieldValue f' = fieldValue f →
      generateSchemaList acc (fs.set i f') = generateSchemaList acc fs := by
  intro fs
  induction fs with
  | nil => intro acc i f f' h _ _; simp at h
  | cons g t ih =>
    intro acc i f f' h hname hval
    cases i with
    | zero =>
      simp only [List.getElem?_cons_zero, Option.some_inj] at h
      subst h
      simp only [List.set_cons_zero, generateSchemaList, hname, hval]
    | succ j =>
      simp only [List.getElem?_cons_succ] at h
      simp only [List.set_cons_succ, generateSchemaList]
      exact ih _ j f f' h hname hval

theorem projection_after_setChildren :
    ∀ (segs : List String) (fs : List SchemaField) (f : SchemaField)
      (newl : List SchemaField), resolveSegs segs fs = some f →
      f.type ≠ SchemaFieldType.nested →
      generateSchemaList [] (setArrSegs (segs ++ ["fields"]) newl fs) =
        generateSchemaList [] fs
  | [], _, _, _, h, _ => by simp [resolveSegs] at h
  | [_], _, _, _, h, _ => by simp [resolveSegs] at h
  | seg :: iStr :: rest, fs, f, newl, h, hty => by
    simp only [resolveSegs] at h
    rw [List.cons_append, List.cons_append]
    by_cases hseg : seg = "fields"
    · subst hseg
      simp only [eq_self_iff_true, if_true] at h
      cases hc : canonIndex? iStr with
      | none => simp [hc] at h
      | some i =>
        rw [hc] at h
        dsimp only at h
        cases rest with
        | nil =>
          dsimp only at h
          simp only [List.nil_append, setArrSegs, eq_self_iff_true, if_true, hc]
          rw [h]
          dsimp only
          obtain ⟨fi, fn, fty, fkids⟩ := f
          simp only [SchemaField.type] at hty
          cases fkids with
          | none =>
            try simp only [eq_self_iff_true, if_true]
            refine generateSchemaList_set fs [] i
              (SchemaField.mk fi fn fty none) _ h rfl ?_
            exact (fieldValue_non_nested _ _ _ _ hty).trans
              (fieldValue_non_nested _ _ _ _ hty).symm
          | some l =>
            try simp only [setArrSegs, eq_self_iff_true, if_true]
            refine generateSchemaList_set fs [] i
              (SchemaField.mk fi fn fty (some l)) _ h rfl ?_
            exact (fieldValue_non_nested _ _ _ _ hty).trans
              (fieldValue_non_nested _ _ _ _ hty).symm
        | cons r rs =>
          dsimp only at h
          cases hget : fs[i]? with
          | none =>
            rw [hget] at h
            exact absurd h (by simp)
          | some f0 =>
            rw [hget] at h
            dsimp only at h
            cases hkids : f0.fields with
            | none =>
              rw [hkids] at h
              exact absurd h (by simp)
            | some l =>
              rw [hkids] at h
              dsimp only at h
              simp only [setArrSegs, eq_self_iff_true, if_true, hc, hget, hkids]
              refine generateSchemaList_set fs [] i f0 _ hget rfl ?_
              obtain ⟨gi, gn, gty, gkids⟩ := f0
              simp only [SchemaField.fields] at hkids
              subst hkids
              dsimp only [SchemaField.id, SchemaField.name, SchemaField.type]
              cases gty with
              | nested =>
                simp only [fieldValue]
                rw [projection_after_setChildren (r :: rs) l f newl h hty]
              | string => rfl
              | number => rfl
    · simp [hseg] at h

theorem splitDotAux_append (l1 l2 : List Char) (acc : List Char) :
    splitDotAux (l1 ++ '.' :: l2) acc = splitDotAux l1 acc ++ splitDotAux l2 [] := by
  induction l1 generalizing acc with
  | nil => simp [splitDotAux]
  | cons c t ih =>
    by_cases hc : c = '.'
    · subst hc
      simp [splitDotAux, ih]
    · simp [splitDotAux, hc, ih]

theorem splitDot_append_fields (s : String) :
    splitDot (s ++ ".fields") = splitDot s ++ ["fields"] := by
  unfold splitDot
  have hdata : (s ++ ".fields").data = s.data ++ '.' :: "fields".data := by
    rw [String.data_append]
  rw [hdata, splitDotAux_append, List.map_append]
  rfl

theorem addField_parent_resolved (st : BuilderState) (pp : String) (f : SchemaField)
    (h : resolveSegs (splitDot pp) st.fields = some f) :
    (addField (some pp) st).1.fields =
      setArrSegs (splitDot pp ++ ["fields"])
        ((f.fields).getD [] ++ [.mk st.nextId "" .string none]) st.fields ∧
    (addField (some pp) st).2 = none ∧
    (addField (some pp) st).1.nextId = st.nextId + 1 := by
  have hpp : pp ≠ "" := by
    intro he
    subst he
    have h0 : (none : Option SchemaField) = some f := by rw [← h]; rfl
    simp at h0
  have e : addField (some pp) st =
      (⟨setValuesFields (pp ++ ".fields")
          (((getValuesFields (pp ++ ".fields") st.fields).getD []) ++
            [.mk st.nextId "" .string none]) st.fields, st.nextId + 1⟩, none) := by
    unfold addField
    dsimp only
    rw [if_neg hpp]
  rw [e]
  refine ⟨?_, rfl, rfl⟩
  unfold setValuesFields getValuesFields
  rw [splitDot_append_fields, get_children_of_resolve _ _ _ h]

theorem idsList_append (l1 l2 : List SchemaField) :
    idsList (l1 ++ l2) = idsList l1 + idsList l2 := by
  induction l1 with
  | nil => simp [idsList]
  | cons f t ih =>
    simp only [List.cons_append, idsList]
    show idsOfField f + idsList (t ++ l2) = idsOfField f + idsList t + idsList l2
    rw [ih]
    exact (add_assoc _ _ _).symm

theorem idsList_set :
    ∀ (fs : List SchemaField) (i : Nat) (f f' : SchemaField), fs[i]? = some f →
      idsList (fs.set i f') + idsOfField f = idsList fs + idsOfField f'
  | [], i, f, f', h => by simp at h
  | g :: t, 0, f, f', h => by
    simp only [List.getElem?_cons_zero, Option.some_inj] at h
    subst h
    simp only [List.set_cons_zero, idsList]
    abel
  | g :: t, i + 1, f, f', h => by
    simp only [List.getElem?_cons_succ] at h
    simp only [List.set_cons_succ, idsList]
    have he := idsList_set t i f f' h
    calc idsOfField g + idsList (t.set i f') + idsOfField f
        = idsOfField g + (idsList (t.set i f') + idsOfField f) := by abel
      _ = idsOfField g + (idsList t + idsOfField f') := by rw [he]
      _ = idsOfField g + idsList t + idsOfField f' := by abel

theorem idsList_sublist {l1 l2 : List SchemaField} (h : l1.Sublist l2) :
    idsList l1 ≤ idsList l2 := by
  induction h with
  | slnil => exact le_refl _
  | cons g _ ih =>
    simp only [idsList]
    exact le_trans ih (Multiset.le_add_left _ _)
  | cons₂ g _ ih =>
    simp only [idsList]
    exact add_le_add_left ih _

theorem spliceRemove_sublist (i : Int) (l : List SchemaField) :
    (spliceRemove i l).Sublist l := by
  unfold spliceRemove
  set n : Nat := if i < 0 then ((l.length : Int) + i).toNat
    else min i.toNat l.length with hn
  have h1 : (l.drop (n + 1)).Sublist (l.drop n) := by
    rw [show n + 1 = n + 1 from rfl, ← List.drop_drop, List.drop_one]
    exact List.tail_sublist _
  have h2 : (l.take n ++ l.drop (n + 1)).Sublist (l.take n ++ l.drop n) :=
    List.Sublist.append_left h1 _
  rw [List.take_append_drop] at h2
  exact h2

theorem jsSplice_sublist (i : Option Int) (l : List SchemaField) :
    (jsSplice i l).Sublist l := spliceRemove_sublist _ l

theorem jsSplice_nil (i : Option Int) : jsSplice i ([] : List SchemaField) = [] := by
  unfold jsSplice spliceRemove
  simp

theorem ids_set_get :
    ∀ (segs : List String) (newl fs : List SchemaField),
      (∃ cur, getArrSegs segs fs = some cur ∧
        idsList (setArrSegs segs newl fs) + idsList cur =
          idsList fs + idsList newl) ∨
      (getArrSegs segs fs = none ∧
        (idsList (setArrSegs segs newl fs) = idsList fs ∨
         idsList (setArrSegs segs newl fs) = idsList fs + idsList newl))
  | [], newl, fs => by
    right
    exact ⟨rfl, Or.inl rfl⟩
  | [seg], newl, fs => by
    by_cases hseg : seg = "fields"
    · subst hseg
      left
      refine ⟨fs, by simp [getArrSegs], ?_⟩
      simp only [setArrSegs, eq_self_iff_true, if_true]
      exact add_comm _ _
    · right
      refine ⟨by simp [getArrSegs, hseg], Or.inl ?_⟩
      simp [setArrSegs, hseg]
  | seg :: iStr :: rest, newl, fs => by
    simp only [getArrSegs, setArrSegs]
    by_cases hseg : seg = "fields"
    · subst hseg
      simp only [eq_self_iff_true, if_true]
      cases hc : canonIndex? iStr with
      | none =>
        right
        exact ⟨rfl, Or.inl rfl⟩
      | some i =>
        dsimp only
        cases hget : fs[i]? with
        | none =>
          dsimp only
          right
          exact ⟨rfl, Or.inl rfl⟩
        | some f =>
          obtain ⟨fi, fn, fty, fkids⟩ := f
          dsimp only [SchemaField.id, SchemaField.name, SchemaField.type,
            SchemaField.fields]
          cases fkids with
          | none =>
            dsimp only
            right
            refine ⟨rfl, ?_⟩
            by_cases hrest : rest = ["fields"]
            · subst hrest
              simp only [eq_self_iff_true, if_true]
              right
              have hs := idsList_set fs i (SchemaField.mk fi fn fty none)
                (SchemaField.mk fi fn fty (some newl)) hget
              simp only [idsOfField] at hs
              have h4 : idsList (fs.set i (SchemaField.mk fi fn fty (some newl))) +
                  {fi} = (idsList fs + idsList newl) + {fi} := by
                calc idsList (fs.set i (SchemaField.mk fi fn fty (some newl))) + {fi}
                    = idsList fs + ({fi} + idsList newl) := hs
                  _ = (idsList fs + idsList newl) + {fi} := by abel
              exact add_right_cancel h4
            · simp only [hrest, if_false]
              exact Or.inl trivial
          | some l =>
            dsimp only
            rcases ids_set_get rest newl l with ⟨cur, hget2, heq⟩ | ⟨hnone, hids⟩
            · left
              refine ⟨cur, hget2, ?_⟩
              have hs := idsList_set fs i
                (SchemaField.mk fi fn fty (some l))
                (SchemaField.mk fi fn fty (some (setArrSegs rest newl l))) hget
              simp only [idsOfField] at hs
              have k1 : idsList (fs.set i (SchemaField.mk fi fn fty
                    (some (setArrSegs rest newl l)))) + idsList l =
                  idsList fs + idsList (setArrSegs rest newl l) := by
                have h3 : {fi} + (idsList (fs.set i (SchemaField.mk fi fn fty
                      (some (setArrSegs rest newl l)))) + idsList l) =
                    {fi} + (idsList fs + idsList (setArrSegs rest newl l)) := by
                  calc {fi} + (idsList (fs.set i (SchemaField.mk fi fn fty
                        (some (setArrSegs rest newl l)))) + idsList l)
                      = idsList (fs.set i (SchemaField.mk fi fn fty
                          (some (setArrSegs rest newl l)))) + ({fi} + idsList l) := by
                        abel
                    _ = idsList fs + ({fi} + idsList (setArrSegs rest newl l)) := hs
                    _ = {fi} + (idsList fs + idsList (setArrSegs rest newl l)) := by
                        abel
                exact add_left_cancel h3
              have h4 : (idsList (fs.set i (SchemaField.mk fi fn fty
                    (some (setArrSegs rest newl l)))) + idsList cur) + idsList l =
                  (idsList fs + idsList newl) + idsList l := by
                calc (idsList (fs.set i (SchemaField.mk fi fn fty
                      (some (setArrSegs rest newl l)))) + idsList cur) + idsList l
                    = (idsList (fs.set i (SchemaField.mk fi fn fty
                        (some (setArrSegs rest newl l)))) + idsList l) +
                          idsList cur := by abel
                  _ = (idsList fs + idsList (setArrSegs rest newl l)) +
                        idsList cur := by rw [k1]
                  _ = idsList fs + (idsList (setArrSegs rest newl l) +
                        idsList cur) := by abel
                  _ = idsList fs + (idsList l + idsList newl) := by rw [heq]
                  _ = (idsList fs + idsList newl) + idsList l := by abel
              exact add_right_cancel h4
            · right
              refine ⟨hnone, ?_⟩
              have hs := idsList_set fs i
                (SchemaField.mk fi fn fty (some l))
                (SchemaField.mk fi fn fty (some (setArrSegs rest newl l))) hget
              simp only [idsOfField] at hs
              cases hids with
              | inl hl =>
                left
                have h4 : idsList (fs.set i (SchemaField.mk fi fn fty
                      (some (setArrSegs rest newl l)))) +
                    ({fi} + idsList l) = idsList fs + ({fi} + idsList l) := by
                  calc idsList (fs.set i (SchemaField.mk fi fn fty
                        (some (setArrSegs rest newl l)))) + ({fi} + idsList l)
                      = idsList fs + ({fi} + idsList (setArrSegs rest newl l)) := hs
                    _ = idsList fs + ({fi} + idsList l) := by rw [hl]
                exact add_right_cancel h4
              | inr hr =>
                right
                have h4 : idsList (fs.set i (SchemaField.mk fi fn fty
                      (some (setArrSegs rest newl l)))) + ({fi} + idsList l) =
                    (idsList fs + idsList newl) + ({fi} + idsList l) := by
                  calc idsList (fs.set i (SchemaField.mk fi fn fty
                        (some (setArrSegs rest newl l)))) + ({fi} + idsList l)
                      = idsList fs + ({fi} + idsList (setArrSegs rest newl l)) := hs
                    _ = idsList fs + ({fi} + (idsList l + idsList newl)) := by
                        rw [hr]
                    _ = (idsList fs + idsList newl) + ({fi} + idsList l) := by abel
                exact add_right_cancel h4
    · simp only [hseg, if_false]
      right
      exact ⟨trivial, Or.inl trivial⟩

theorem removeField_ids (path : String) (fs : List SchemaField) :
    idsList (removeField path fs) ≤ idsList fs := by
  unfold removeField
  by_cases hinc : strIncludes path ".fields." = true
  · rw [if_pos hinc]
    dsimp only
    unfold setValuesFields getValuesFields
    rcases ids_set_get
        (splitDot (String.intercalate "." (splitDot path).dropLast))
        (jsSplice (parseIntJS ((splitDot path).getLastD ""))
          ((getArrSegs (splitDot (String.intercalate "."
            (splitDot path).dropLast)) fs).getD []))
        fs with ⟨cur, hget, heq⟩ | ⟨hnone, hids⟩
    · rw [hget]
      rw [hget] at heq
      simp only [Option.getD_some] at heq ⊢
      have hle : idsList (jsSplice (parseIntJS ((splitDot path).getLastD "")) cur) ≤
          idsList cur := idsList_sublist (jsSplice_sublist _ _)
      have h2 : idsList (setArrSegs
            (splitDot (String.intercalate "." (splitDot path).dropLast))
            (jsSplice (parseIntJS ((splitDot path).getLastD "")) cur) fs) +
          idsList cur ≤ idsList fs + idsList cur :=
        heq.le.trans (add_le_add_left hle _)
      exact (add_le_add_iff_right _).1 h2
    · rw [hnone] at hids ⊢
      simp only [Option.getD_none, jsSplice_nil] at hids ⊢
      rcases hids with hl | hr
      · exact hl.le
      · rw [hr]
        simp [idsList]
  · rw [if_neg hinc]
    exact idsList_sublist (jsSplice_sublist _ _)

theorem addField_ids (p : Option String) (st : BuilderState) :
    idsList (addField p st).1.fields = idsList st.fields + {st.nextId} ∨
    idsList (addField p st).1.fields = idsList st.fields := by
  have hroot : idsList (st.fields ++ [SchemaField.mk st.nextId "" .string none]) =
      idsList st.fields + {st.nextId} := by
    rw [idsList_append]
    simp [idsList, idsOfField]
  cases p with
  | none => exact Or.inl hroot
  | some pp =>
    by_cases hpp : pp = ""
    · subst hpp
      exact Or.inl hroot
    · unfold addField
      dsimp only
      rw [if_neg hpp]
      dsimp only
      unfold setValuesFields getValuesFields
      rcases ids_set_get (splitDot (pp ++ ".fields"))
          ((getArrSegs (splitDot (pp ++ ".fields")) st.fields).getD [] ++
            [SchemaField.mk st.nextId "" .string none])
          st.fields with ⟨cur, hget, heq⟩ | ⟨hnone, hids⟩
      · left
        rw [hget] at heq ⊢
        simp only [Option.getD_some] at heq ⊢
        rw [idsList_append] at heq
        have hsingle : idsList [SchemaField.mk st.nextId "" .string none] =
            ({st.nextId} : Multiset Nat) := by simp [idsList, idsOfField]
        rw [hsingle] at heq
        have h4 : idsList (setArrSegs (splitDot (pp ++ ".fields"))
              (cur ++ [SchemaField.mk st.nextId "" .string none]) st.fields) +
            idsList cur =
            (idsList st.fields + {st.nextId}) + idsList cur := by
          calc idsList (setArrSegs (splitDot (pp ++ ".fields"))
                (cur ++ [SchemaField.mk st.nextId "" .string none]) st.fields) +
              idsList cur
              = idsList st.fields + (idsList cur + {st.nextId}) := heq
            _ = (idsList st.fields + {st.nextId}) + idsList cur := by abel
        exact add_right_cancel h4
      · rw [hnone] at hids ⊢
        simp only [Option.getD_none, List.nil_append] at hids ⊢
        have hsingle : idsList [SchemaField.mk st.nextId "" .string none] =
            ({st.nextId} : Multiset Nat) := by simp [idsList, idsOfField]
        rw [hsingle] at hids
        rcases hids with hl | hr
        · exact Or.inr hl
        · exact Or.inl hr

theorem addField_nextId (p : Option String) (st : BuilderState) :
    (addField p st).1.nextId = st.nextId + 1 := by
  cases p with
  | none => rfl
  | some pp =>
    by_cases hpp : pp = ""
    · subst hpp
      rfl
    · unfold addField
      dsimp only
      rw [if_neg hpp]

theorem applyOp_inv (st : BuilderState) (o : Op) (h : builderInv st) :
    builderInv (applyOp st o) := by
  obtain ⟨hnd, hb⟩ := h
  cases o with
  | remove p =>
    have hle : idsList (removeField (pathToString p) st.fields) ≤
        idsList st.fields := removeField_ids _ _
    exact ⟨Multiset.nodup_of_le hle hnd,
      fun x hx => hb x (Multiset.mem_of_le hle hx)⟩
  | add p =>
    have hnext := addField_nextId (p.map pathToString) st
    rcases addField_ids (p.map pathToString) st with hl | hr
    · constructor
      · show (idsList (addField (p.map pathToString) st).1.fields).Nodup
        rw [hl, Multiset.nodup_add]
        refine ⟨hnd, Multiset.nodup_singleton _, Multiset.disjoint_left.2 ?_⟩
        intro a ha ha2
        rw [Multiset.mem_singleton] at ha2
        subst ha2
        exact lt_irrefl _ (hb _ ha)
      · intro x hx
        show x < (addField (p.map pathToString) st).1.nextId
        rw [hnext]
        rw [show applyOp st (Op.add p) = (addField (p.map pathToString) st).1
          from rfl] at hx
        rw [hl, Multiset.mem_add] at hx
        rcases hx with hx | hx
        · exact lt_trans (hb x hx) (Nat.lt_succ_self _)
        · rw [Multiset.mem_singleton] at hx
          subst hx
          exact Nat.lt_succ_self _
    · constructor
      · show (idsList (addField (p.map pathToString) st).1.fields).Nodup
        rw [hr]
        exact hnd
      · intro x hx
        show x < (addField (p.map pathToString) st).1.nextId
        rw [hnext]
        rw [show applyOp st (Op.add p) = (addField (p.map pathToString) st).1
          from rfl] at hx
        rw [hr] at hx
        exact lt_trans (hb x hx) (Nat.lt_succ_self _)

theorem runOps_inv (ops : List Op) :
    ∀ (st : BuilderState), builderInv st → builderInv (runOps st ops) := by
  induction ops with
  | nil => exact fun st h => h
  | cons o rest ih =>
    intro st h
    exact ih _ (applyOp_inv st o h)

theorem initialState_inv : builderInv initialState := by
  constructor
  · show (idsList [SchemaField.mk 0 "" .string none]).Nodup
    simp [idsList, idsOfField]
  · intro x hx
    simp only [show idsList initialState.fields = {0} from by
      simp [initialState, idsList, idsOfField], Multiset.mem_singleton] at hx
    subst hx
    exact Nat.zero_lt_one

/-- C2 counterexample: the structural path `[0, 5]` does not resolve in a
tree whose only root field has a single child, yet `removeField` on the
corresponding UI path completes normally — it does not fail with
`InvalidPathError` (the source has no failure path at all). -/
theorem c2_counterexample :
    resolvesSpec [0, 5] [.mk 0 "a" .nested (some [.mk 1 "b" .string none])] = false ∧
    isErrorResult (removeFieldE (pathToString [0, 5])
        [.mk 0 "a" .nested (some [.mk 1 "b" .string none])]) = false :=
  ⟨rfl, rfl⟩

/-- C2 (amended): `removeField` never fails: the source contains no `throw`
and defines no `InvalidPathError`, so every call — with any path string on
any tree — returns normally. -/
theorem c2_remove_field_never_fails (path : String) (fs : List SchemaField) :
    isErrorResult (removeFieldE path fs) = false := rfl

/-- C3 (code bug): on root paths, `removeField` computes its index with
`parseInt("fields.i")`, which is `NaN`, so the index is lost: removing the
second of two root fields splices index 0 and deletes the first field
instead, giving the same result as removing the first field. -/
theorem c3_root_removal_ignores_index :
    parseIntJS "fields.1" = none ∧
    removeField "fields.1" [.mk 10 "a" .string none, .mk 11 "b" .number none] =
      [.mk 11 "b" .number none] ∧
    removeField "fields.0" [.mk 10 "a" .string none, .mk 11 "b" .number none] =
      [.mk 11 "b" .number none] :=
  ⟨rfl, rfl, rfl⟩

/-- C4: a field whose type is not `nested` projects to its literal type tag
and contributes no nested content, whatever children data is still attached
to it; a singleton tree with such a field projects to exactly its name
mapped to the tag. -/
theorem c4_non_nested_projects_type_tag (f : SchemaField)
    (h : f.type ≠ SchemaFieldType.nested) :
    fieldValue f = .str (typeTag f.type) ∧
    generateSchema [f] = .obj [(f.name, .str (typeTag f.type))] := by
  obtain ⟨i, n, t, c⟩ := f
  cases t
  · refine ⟨rfl, ?_⟩
    show Json.obj (objInsert [] n (Json.str "string")) = _
    rw [objInsert_nil]
    rfl
  · refine ⟨rfl, ?_⟩
    show Json.obj (objInsert [] n (Json.str "number")) = _
    rw [objInsert_nil]
    rfl
  · exact absurd rfl h

/-- C4 witness: a former `nested` field with children still attached,
switched to `string`, projects as its name mapped to `"string"`. -/
theorem c4_witness :
    fieldValue (.mk 0 "k" .string (some [.mk 1 "c" .number none])) =
        .str "string" ∧
    generateSchema [.mk 0 "k" .string (some [.mk 1 "c" .number none])] =
        .obj [("k", .str "string")] :=
  c4_non_nested_projects_type_tag
    (.mk 0 "k" .string (some [.mk 1 "c" .number none])) (by decide)

/-- C5: a `nested` field with absent or empty children projects to the empty
object, and an empty root sequence projects to the empty object. -/
theorem c5_empty_nested_projects_empty_object :
    (∀ (i : Nat) (n : String),
        fieldValue (.mk i n .nested none) = .obj [] ∧
        fieldValue (.mk i n .nested (some [])) = .obj []) ∧
    generateSchema [] = .obj [] :=
  ⟨fun _ _ => ⟨rfl, rfl⟩, rfl⟩

/-- C6 counterexample: `addField` appends the new field (whose id here is 1)
but returns `undefined` — it does not return the new field's id. -/
theorem c6_counterexample :
    (addField none initialState).1.fields =
      [.mk 0 "" .string none, .mk 1 "" .string none] ∧
    (addField none initialState).2 ≠ some 1 := by
  refine ⟨rfl, fun hcl => ?_⟩
  have h0 : (none : Option Nat) = some 1 :=
    (show (addField none initialState).2 = none from rfl).symm.trans hcl
  simp at h0

/-- C6 (amended): `addField` creates a field with a fresh id, empty name,
type `string` and no children; with no (or an empty) parent path it is
appended at the end of the root sequence, and with a parent path that
resolves to a field it is appended at the end of that field's children
(the sequence being created if absent); the call returns nothing — the new
field's id is not returned. -/
theorem c6_add_field (st : BuilderState) :
    (addField none st =
        (⟨st.fields ++ [.mk st.nextId "" .string none], st.nextId + 1⟩, none)) ∧
    (addField (some "") st =
        (⟨st.fields ++ [.mk st.nextId "" .string none], st.nextId + 1⟩, none)) ∧
    (∀ (pp : String) (f : SchemaField),
        resolveSegs (splitDot pp) st.fields = some f →
        resolveSegs (splitDot pp) (addField (some pp) st).1.fields =
            some (.mk f.id f.name f.type
              (some ((f.fields).getD [] ++ [.mk st.nextId "" .string none]))) ∧
          (addField (some pp) st).2 = none ∧
          (addField (some pp) st).1.nextId = st.nextId + 1) := by
  refine ⟨rfl, rfl, fun pp f h => ?_⟩
  obtain ⟨hset, hret, hnext⟩ := addField_parent_resolved st pp f h
  refine ⟨?_, hret, hnext⟩
  rw [hset]
  exact resolve_after_setChildren (splitDot pp) st.fields f _ h

/-- C6 witness: adding under the (resolving) path of the initial root field
appends the new field to its children and returns nothing. -/
theorem c6_witness :
    resolveSegs (splitDot "fields.0") initialState.fields =
        some (.mk 0 "" .string none) ∧
    resolveSegs (splitDot "fields.0")
        (addField (some "fields.0") initialState).1.fields =
      some (.mk 0 "" .string (some [.mk 1 "" .string none])) ∧
    (addField (some "fields.0") initialState).2 = none ∧
    (addField (some "fields.0") initialState).1.nextId = 2 :=
  ⟨rfl, (c6_add_field initialState).2.2 "fields.0" (.mk 0 "" .string none) rfl⟩

/-- C7 counterexample: switching the type of a childless field to `nested`
leaves its children component absent — it is not initialized to an empty
sequence. -/
theorem c7_counterexample :
    setFieldTypeAt "fields.0" SchemaFieldType.nested
        [SchemaField.mk 7 "a" .string none] =
      [SchemaField.mk 7 "a" .nested none] ∧
    setFieldTypeAt "fields.0" SchemaFieldType.nested
        [SchemaField.mk 7 "a" .string none] ≠
      [SchemaField.mk 7 "a" .nested (some [])] := by
  refine ⟨rfl, fun hcl => ?_⟩
  have h0 : ([SchemaField.mk 7 "a" .nested none] : List SchemaField) =
      [SchemaField.mk 7 "a" .nested (some [])] :=
    (show setFieldTypeAt "fields.0" SchemaFieldType.nested
        [SchemaField.mk 7 "a" .string none] =
      [SchemaField.mk 7 "a" .nested none] from rfl).symm.trans hcl
  simp at h0

/-- C7 (amended): the type selector's change handler overwrites only the
`type` at the path; the field's id, name and children component are kept
exactly as they were — in particular absent children stay absent after
switching to `nested`. -/
theorem c7_set_type_preserves_children (path : String) (ty : SchemaFieldType)
    (fs : List SchemaField) (f : SchemaField)
    (h : resolveSegs (splitDot path) fs = some f) :
    resolveSegs (splitDot path) (setFieldTypeAt path ty fs) =
      some (.mk f.id f.name ty f.fields) :=
  resolve_after_setType (splitDot path) ty fs f h

/-- C7 witness: switching the single root field to `nested` updates the type
and leaves the children component absent. -/
theorem c7_witness :
    resolveSegs (splitDot "fields.0") [SchemaField.mk 7 "a" .string none] =
        some (.mk 7 "a" .string none) ∧
    resolveSegs (splitDot "fields.0")
        (setFieldTypeAt "fields.0" SchemaFieldType.nested
          [SchemaField.mk 7 "a" .string none]) =
      some (.mk 7 "a" .nested none) :=
  ⟨rfl, c7_set_type_preserves_children "fields.0" .nested
    [SchemaField.mk 7 "a" .string none] (.mk 7 "a" .string none) rfl⟩

/-- C8: after any sequence of `addField`/`removeField` operations from the
initial tree, the multiset of ids across the whole tree has no duplicate,
and every id is below the fresh-id counter (so a removed id is never handed
out again). -/
theorem c8_ids_unique (ops : List Op) :
    (idsList (runOps initialState ops).fields).Nodup ∧
    ∀ x ∈ idsList (runOps initialState ops).fields,
      x < (runOps initialState ops).nextId :=
  runOps_inv ops initialState initialState_inv

/-- C9: the projection never fails — every tree projects to an object — and
a field with an empty name projects under the empty-string key, several
unnamed fields colliding on that key with the last one winning. -/
theorem c9_projection_never_fails :
    (∀ fs : List SchemaField, ∃ kvs, generateSchema fs = .obj kvs) ∧
    generateSchema [.mk 0 "" .string none] = .obj [("", .str "string")] ∧
    generateSchema [.mk 0 "" .string none, .mk 1 "" .number none] =
      .obj [("", .str "number")] :=
  ⟨fun fs => ⟨generateSchemaList [] fs, rfl⟩, rfl, rfl⟩

/-- C10: `addField` under a parent path that resolves to a field whose type
is not `nested` does not fail: the new field is appended to that field's
children (created if absent), and the projection is unchanged — those
children are invisible while the parent's type is not `nested`. -/
theorem c10_add_field_under_non_nested (st : BuilderState) (pp : String)
    (f : SchemaField) (h : resolveSegs (splitDot pp) st.fields = some f)
    (hty : f.type ≠ SchemaFieldType.nested) :
    resolveSegs (splitDot pp) (addField (some pp) st).1.fields =
        some (.mk f.id f.name f.type
          (some ((f.fields).getD [] ++ [.mk st.nextId "" .string none]))) ∧
      generateSchema (addField (some pp) st).1.fields =
        generateSchema st.fields := by
  obtain ⟨hset, _, _⟩ := addField_parent_resolved st pp f h
  constructor
  · rw [hset]
    exact resolve_after_setChildren (splitDot pp) st.fields f _ h
  · rw [hset]
    unfold generateSchema
    rw [projection_after_setChildren (splitDot pp) st.fields f _ h hty]

/-- C10 witness: adding under the string-typed initial root field appends a
hidden child and leaves the projection unchanged. -/
theorem c10_witness :
    resolveSegs (splitDot "fields.0") initialState.fields =
        some (.mk 0 "" .string none) ∧
    (SchemaField.mk 0 "" .string none).type ≠ SchemaFieldType.nested ∧
    resolveSegs (splitDot "fields.0")
        (addField (some "fields.0") initialState).1.fields =
      some (.mk 0 "" .string (some [.mk 1 "" .string none])) ∧
    generateSchema (addField (some "fields.0") initialState).1.fields =
      generateSchema initialState.fields :=
  ⟨rfl, by decide,
    c10_add_field_under_non_nested initialState "fields.0"
      (.mk 0 "" .string none) rfl (by decide)⟩
